import Mathlib

/-!
Verification of the `bitflip` library (src/lib.rs): single-bit mutation
generation over byte buffers, with an optional UTF-8 validity filter.

Bytes are modelled as `Nat` (the library only XORs a byte with `1 << bit`
for `bit < 8`, which neither overflows nor truncates on values below 256,
so `Nat.xor` agrees exactly with `u8` XOR on byte values).  Rust iterators
take `&mut self`; we model `next` by explicit state passing, returning the
emitted item (or `none` at exhaustion) together with the successor state.
Decoded `String`s are represented by their UTF-8 byte buffers (UTF-8
decoding of a valid buffer is injective, so this loses nothing).
-/

namespace Bitflip

/-- The `ByteIterator` struct of src/lib.rs: the owned copy of the input,
the byte-position cursor `pos`, the bit cursor `bit`, and the policy width
`max` (7 or 8). -/
structure ByteIterator where
  input : List Nat
  pos : Nat
  bit : Nat
  max : Nat
deriving DecidableEq, Repr

/-- `ByteIterator::next` (src/lib.rs lines 77-92): if `pos` has reached the
buffer length, yield nothing and leave the state unchanged; otherwise emit a
fresh copy of the input with the byte at `pos` XOR-ed with `1 << bit`, then
advance `bit`, wrapping it to 0 and incrementing `pos` when it reaches `max`. -/
def ByteIterator.next (it : ByteIterator) : Option (List Nat) × ByteIterator :=
  if it.input.length ≤ it.pos then
    (none, it)
  else
    let output := it.input.set it.pos ((it.input.getD it.pos 0) ^^^ (1 <<< it.bit))
    if it.max ≤ it.bit + 1 then
      (some output, { it with pos := it.pos + 1, bit := 0 })
    else
      (some output, { it with bit := it.bit + 1 })

/-- `ascii_bytes` (src/lib.rs lines 30-37): 7-bit policy, cursors at 0. -/
def ascii_bytes (input : List Nat) : ByteIterator :=
  { input := input, pos := 0, bit := 0, max := 7 }

/-- `bytes` (src/lib.rs lines 50-57): 8-bit policy, cursors at 0. -/
def bytes (input : List Nat) : ByteIterator :=
  { input := input, pos := 0, bit := 0, max := 8 }

/-- Modelled from the spec: a UTF-8 continuation byte, `80..BF` (part of
the validity rules of Rust's `String::from_utf8`, standard library, not
part of src/). -/
def isCont (b : Nat) : Bool := 0x80 ≤ b && b ≤ 0xBF

/-- Modelled from the spec: one transition of the standard UTF-8 acceptance
automaton (Unicode Table 3-7, the validity condition of Rust's
`String::from_utf8`, standard library, not part of src/).  State 0 is
start/accept; states 1-3 expect that many plain continuation bytes; states
4-7 expect a range-restricted second byte (after lead bytes `E0`, `ED`,
`F0`, `F4`: no overlong encodings, no surrogates, nothing above
`U+10FFFF`), then behave like states 1-2. -/
def utf8Step (st b : Nat) : Option Nat :=
  if st = 0 then
    if b ≤ 0x7F then some 0
    else if 0xC2 ≤ b ∧ b ≤ 0xDF then some 1
    else if b = 0xE0 then some 4
    else if b = 0xED then some 5
    else if (0xE1 ≤ b ∧ b ≤ 0xEC) ∨ (0xEE ≤ b ∧ b ≤ 0xEF) then some 2
    else if b = 0xF0 then some 6
    else if 0xF1 ≤ b ∧ b ≤ 0xF3 then some 3
    else if b = 0xF4 then some 7
    else none
  else if st = 1 then if isCont b then some 0 else none
  else if st = 2 then if isCont b then some 1 else none
  else if st = 3 then if isCont b then some 2 else none
  else if st = 4 then if 0xA0 ≤ b ∧ b ≤ 0xBF then some 1 else none
  else if st = 5 then if 0x80 ≤ b ∧ b ≤ 0x9F then some 1 else none
  else if st = 6 then if 0x90 ≤ b ∧ b ≤ 0xBF then some 2 else none
  else if st = 7 then if 0x80 ≤ b ∧ b ≤ 0x8F then some 2 else none
  else none

/-- Modelled from the spec: run the UTF-8 acceptance automaton over a
buffer from state `st`; `none` means a malformed byte was hit. -/
def utf8Run : Nat → List Nat → Option Nat
  | st, [] => some st
  | st, b :: rest =>
    match utf8Step st b with
    | none => none
    | some st2 => utf8Run st2 rest

/-- Modelled from the spec: whole-buffer UTF-8 validity, the success
condition of `String::from_utf8` (Rust standard library, not part of
src/): the automaton consumes the whole buffer and ends in the accept
state (no dangling incomplete sequence). -/
def validUtf8 (l : List Nat) : Bool := utf8Run 0 l == some 0

/-- The `StringIterator` struct of src/lib.rs line 97: a wrapper around one
`ByteIterator`, holding no cursor of its own. -/
structure StringIterator where
  inner : ByteIterator
deriving DecidableEq, Repr

/-- Termination measure for the skip-loop of `StringIterator::next`: it
strictly decreases on every emitting step of the inner byte iterator. -/
def ByteIterator.steps (it : ByteIterator) : Nat :=
  (it.input.length - it.pos) * (it.max + 1) + (it.max - it.bit)

theorem ByteIterator.steps_next_some {it : ByteIterator} {v : List Nat}
    {it' : ByteIterator} (h : it.next = (some v, it')) :
    it'.steps < it.steps := by
  unfold ByteIterator.next at h
  split at h
  · exact absurd (congrArg Prod.fst h) (by simp)
  · rename_i hpos
    split at h <;>
      (cases h
       obtain ⟨k, hk⟩ : ∃ k, it.input.length - it.pos = k + 1 :=
         ⟨it.input.length - it.pos - 1, by omega⟩
       simp only [ByteIterator.steps, hk]
       have hexp : (k + 1) * (it.max + 1) = k * (it.max + 1) + (it.max + 1) := by ring
       rw [hexp]
       have hsub : it.input.length - (it.pos + 1) = k := by omega
       first
       | (rw [hsub]; omega)
       | omega)

/-- `StringIterator::next` (src/lib.rs lines 102-109): repeatedly pull from
the wrapped byte iterator; return the first emitted buffer that is valid
UTF-8 (Rust returns it decoded; we keep its bytes), silently discarding
invalid ones; when the inner iterator is exhausted, yield nothing. -/
def StringIterator.next (s : StringIterator) : Option (List Nat) × StringIterator :=
  match h : s.inner.next with
  | (none, it') => (none, ⟨it'⟩)
  | (some v, it') =>
    if validUtf8 v then (some v, ⟨it'⟩)
    else StringIterator.next ⟨it'⟩
termination_by s.inner.steps
decreasing_by exact ByteIterator.steps_next_some h

/-- `ascii_str` (src/lib.rs lines 43-45): 7-bit byte mutator wrapped by the
UTF-8 filter.  The `&str` input is taken as its UTF-8 byte buffer. -/
def ascii_str (input : List Nat) : StringIterator :=
  ⟨ascii_bytes input⟩

/-- `utf8` (src/lib.rs lines 61-63): 8-bit byte mutator wrapped by the
UTF-8 filter.  The `&str` input is taken as its UTF-8 byte buffer. -/
def utf8 (input : List Nat) : StringIterator :=
  ⟨bytes input⟩

/-- Number of values the byte iterator will still emit (exact for reachable
states, i.e. when `bit < max`). -/
def ByteIterator.remaining (it : ByteIterator) : Nat :=
  (it.input.length - it.pos) * it.max - it.bit

/-- Collect the emitted values of a byte iterator, structurally on fuel. -/
def ByteIterator.toListFuel : Nat → ByteIterator → List (List Nat)
  | 0, _ => []
  | n + 1, it =>
    match it.next with
    | (none, _) => []
    | (some v, it') => v :: ByteIterator.toListFuel n it'

/-- The full finite sequence a byte iterator emits until exhaustion. -/
def ByteIterator.toList (it : ByteIterator) : List (List Nat) :=
  ByteIterator.toListFuel it.remaining it

/-- Collect the emitted values of a string iterator, structurally on fuel
(each emitted value consumes at least one inner byte-iterator step, so
`inner.steps` fuel always suffices). -/
def StringIterator.toListFuel : Nat → StringIterator → List (List Nat)
  | 0, _ => []
  | n + 1, s =>
    match s.next with
    | (none, _) => []
    | (some v, s') => v :: StringIterator.toListFuel n s'

/-- The full finite sequence a string iterator emits until exhaustion. -/
def StringIterator.toList (s : StringIterator) : List (List Nat) :=
  StringIterator.toListFuel s.inner.steps s

/-- The state of a byte iterator after `n` calls to `next`. -/
def ByteIterator.after (it : ByteIterator) : Nat → ByteIterator
  | 0 => it
  | n + 1 => ((it.after n).next).2

/-- The state of a string iterator after `n` calls to `next`. -/
def StringIterator.after (s : StringIterator) : Nat → StringIterator
  | 0 => s
  | n + 1 => ((s.after n).next).2

/-- A copy of `l` with the byte at position `p` XOR-ed with mask `m` —
exactly the buffer `ByteIterator::next` emits (with `m = 1 <<< bit`). -/
def flipAt (l : List Nat) (p m : Nat) : List Nat :=
  l.set p ((l.getD p 0) ^^^ m)

/-- Closed form of the byte mutator's output: for each `i < L * w`, the
input with bit `i % w` of byte `i / w` flipped. -/
def variants (input : List Nat) (w : Nat) : List (List Nat) :=
  (List.range (input.length * w)).map fun i => flipAt input (i / w) (2 ^ (i % w))

/-- Number of set bits of a natural number. -/
def popCount (n : Nat) : Nat :=
  if n = 0 then 0 else n % 2 + popCount (n / 2)

/-- Total number of bit positions at which two equal-length buffers differ. -/
def diffBits (a b : List Nat) : Nat :=
  ((List.zipWith (· ^^^ ·) a b).map popCount).sum

theorem ByteIterator.next_of_exhausted {it : ByteIterator}
    (h : it.input.length ≤ it.pos) : it.next = (none, it) := by
  simp [ByteIterator.next, h]

theorem ByteIterator.next_fst_none {it : ByteIterator}
    (h : (it.next).1 = none) : it.input.length ≤ it.pos := by
  by_contra hlt
  unfold ByteIterator.next at h
  split at h
  · exact hlt (by assumption)
  · split at h <;> simp at h

theorem ByteIterator.next_some_of_lt {it : ByteIterator} (h : it.pos < it.input.length) :
    it.next = (some (flipAt it.input it.pos (1 <<< it.bit)),
      if it.max ≤ it.bit + 1 then { it with pos := it.pos + 1, bit := 0 }
      else { it with bit := it.bit + 1 }) := by
  have hne : ¬ it.input.length ≤ it.pos := by omega
  simp only [ByteIterator.next, if_neg hne, flipAt]
  split <;> simp_all

theorem ByteIterator.next_input (it : ByteIterator) : ((it.next).2).input = it.input := by
  unfold ByteIterator.next
  split
  · rfl
  · split <;> rfl

theorem ByteIterator.next_max (it : ByteIterator) : ((it.next).2).max = it.max := by
  unfold ByteIterator.next
  split
  · rfl
  · split <;> rfl

theorem ByteIterator.next_inv {it : ByteIterator} (hb : it.bit < it.max)
    (hp : it.pos ≤ it.input.length) :
    ((it.next).2).bit < ((it.next).2).max ∧ ((it.next).2).pos ≤ ((it.next).2).input.length := by
  unfold ByteIterator.next
  split
  · exact ⟨hb, hp⟩
  · rename_i hlt
    split <;> refine ⟨?_, ?_⟩ <;> simp <;> omega

theorem ByteIterator.remaining_eq_zero {it : ByteIterator} (hb : it.bit < it.max)
    (h : it.remaining = 0) : it.input.length ≤ it.pos := by
  by_contra hlt
  push_neg at hlt
  unfold ByteIterator.remaining at h
  obtain ⟨k, hk⟩ : ∃ k, it.input.length - it.pos = k + 1 :=
    ⟨it.input.length - it.pos - 1, by omega⟩
  rw [hk, show (k + 1) * it.max = k * it.max + it.max from by ring] at h
  generalize k * it.max = K at h
  omega

theorem ByteIterator.remaining_pos {it : ByteIterator} (hb : it.bit < it.max)
    (h : it.pos < it.input.length) : 0 < it.remaining := by
  rcases Nat.eq_zero_or_pos it.remaining with h0 | h0
  · exact absurd (ByteIterator.remaining_eq_zero hb h0) (by omega)
  · exact h0

theorem ByteIterator.remaining_next_some {it : ByteIterator} {v : List Nat}
    {it' : ByteIterator} (hb : it.bit < it.max) (h : it.next = (some v, it')) :
    it.remaining = it'.remaining + 1 := by
  unfold ByteIterator.next at h
  split at h
  · exact absurd (congrArg Prod.fst h) (by simp)
  · rename_i hlt
    push_neg at hlt
    obtain ⟨k, hk⟩ : ∃ k, it.input.length - it.pos = k + 1 :=
      ⟨it.input.length - it.pos - 1, by omega⟩
    split at h <;> cases h <;> rename_i hw <;>
      simp only [ByteIterator.remaining]
    · rw [hk, show it.input.length - (it.pos + 1) = k from by omega,
        show (k + 1) * it.max = k * it.max + it.max from by ring]
      generalize k * it.max = K
      omega
    · rw [hk, show (k + 1) * it.max = k * it.max + it.max from by ring]
      generalize k * it.max = K
      omega

theorem ByteIterator.toListFuel_closed :
    ∀ (n : Nat) (it : ByteIterator), it.bit < it.max → n = it.remaining →
    ByteIterator.toListFuel n it = (List.range n).map
      (fun i => flipAt it.input ((it.pos * it.max + it.bit + i) / it.max)
        (2 ^ ((it.pos * it.max + it.bit + i) % it.max))) := by
  intro n
  induction n with
  | zero => intro it hb hr; simp [ByteIterator.toListFuel]
  | succ n ih =>
    intro it hb hr
    have hpos : it.pos < it.input.length := by
      by_contra hle
      push_neg at hle
      have h0 : it.remaining = 0 := by
        unfold ByteIterator.remaining
        rw [Nat.sub_eq_zero_of_le hle, Nat.zero_mul, Nat.zero_sub]
      omega
    have hnext := ByteIterator.next_some_of_lt hpos
    have hdiv : (it.pos * it.max + it.bit) / it.max = it.pos := by
      rw [Nat.mul_comm, Nat.mul_add_div (by omega), Nat.div_eq_of_lt hb, Nat.add_zero]
    have hmod : (it.pos * it.max + it.bit) % it.max = it.bit := by
      rw [Nat.mul_comm, Nat.mul_add_mod, Nat.mod_eq_of_lt hb]
    have hshift : (1 : Nat) <<< it.bit = 2 ^ it.bit := by
      rw [Nat.shiftLeft_eq, Nat.one_mul]
    rw [List.range_succ_eq_map, List.map_cons, List.map_map]
    by_cases hw : it.max ≤ it.bit + 1
    · rw [if_pos hw] at hnext
      have hrem : n = ({ it with pos := it.pos + 1, bit := 0 } : ByteIterator).remaining := by
        have := ByteIterator.remaining_next_some hb hnext
        omega
      have ihr := ih { it with pos := it.pos + 1, bit := 0 } (by simpa using by omega) hrem
      simp only [ByteIterator.toListFuel, hnext]
      rw [ihr]
      refine congrArg₂ List.cons ?_ ?_
      · simp [hdiv, hmod, hshift]
      · apply List.map_congr_left
        intro i _
        simp only [Function.comp_apply, Nat.succ_eq_add_one]
        have harg : (it.pos + 1) * it.max + 0 + i = it.pos * it.max + it.bit + (i + 1) := by
          rw [show (it.pos + 1) * it.max = it.pos * it.max + it.max from by ring]
          generalize it.pos * it.max = P
          omega
        rw [harg]
    · rw [if_neg hw] at hnext
      have hrem : n = ({ it with bit := it.bit + 1 } : ByteIterator).remaining := by
        have := ByteIterator.remaining_next_some hb hnext
        omega
      have ihr := ih { it with bit := it.bit + 1 } (by simpa using by omega) hrem
      simp only [ByteIterator.toListFuel, hnext]
      rw [ihr]
      refine congrArg₂ List.cons ?_ ?_
      · simp [hdiv, hmod, hshift]
      · apply List.map_congr_left
        intro i _
        simp only [Function.comp_apply, Nat.succ_eq_add_one]
        have harg : it.pos * it.max + (it.bit + 1) + i = it.pos * it.max + it.bit + (i + 1) := by
          generalize it.pos * it.max = P
          omega
        rw [harg]

theorem ByteIterator.toList_closed (it : ByteIterator) (hb : it.bit < it.max) :
    it.toList = (List.range it.remaining).map
      (fun i => flipAt it.input ((it.pos * it.max + it.bit + i) / it.max)
        (2 ^ ((it.pos * it.max + it.bit + i) % it.max))) :=
  ByteIterator.toListFuel_closed it.remaining it hb rfl

theorem ascii_bytes_toList (input : List Nat) :
    (ascii_bytes input).toList = variants input 7 := by
  have h := ByteIterator.toList_closed (ascii_bytes input) (by simp [ascii_bytes])
  simpa [ascii_bytes, ByteIterator.remaining, variants] using h

theorem bytes_toList (input : List Nat) :
    (bytes input).toList = variants input 8 := by
  have h := ByteIterator.toList_closed (bytes input) (by simp [bytes])
  simpa [bytes, ByteIterator.remaining, variants] using h

theorem popCount_zero : popCount 0 = 0 := by
  rw [popCount]
  simp

theorem popCount_two_pow (b : Nat) : popCount (2 ^ b) = 1 := by
  induction b with
  | zero => rw [popCount]; norm_num [popCount_zero]
  | succ b ih =>
    rw [popCount]
    have h2 : 2 ^ (b + 1) = 2 * 2 ^ b := by ring
    have hne : 2 ^ (b + 1) ≠ 0 := by positivity
    rw [if_neg hne, h2]
    simp [Nat.mul_div_cancel_left, Nat.mul_mod_right, ih]

theorem xor_left_cancel {x a b : Nat} (h : x ^^^ a = x ^^^ b) : a = b := by
  have h2 := congrArg (fun y => x ^^^ y) h
  simpa [← Nat.xor_assoc, Nat.xor_self, Nat.zero_xor] using h2

theorem xor_two_pow_ne (x b : Nat) : x ^^^ 2 ^ b ≠ x := by
  intro h
  have h2 : x ^^^ 2 ^ b = x ^^^ 0 := by simpa using h
  have h3 := xor_left_cancel h2
  exact absurd h3 (by positivity)

theorem flipAt_length (l : List Nat) (p m : Nat) : (flipAt l p m).length = l.length := by
  simp [flipAt]

theorem flipAt_getD_self (l : List Nat) (p m : Nat) (hp : p < l.length) :
    (flipAt l p m).getD p 0 = (l.getD p 0) ^^^ m := by
  simp [flipAt, List.getD_eq_getElem?_getD, List.getElem?_set, hp]

theorem flipAt_getD_ne (l : List Nat) (p m q : Nat) (hq : p ≠ q) :
    (flipAt l p m).getD q 0 = l.getD q 0 := by
  simp [flipAt, List.getD_eq_getElem?_getD, List.getElem?_set, hq]

theorem flipAt_ne_of_ne {l : List Nat} {p1 b1 p2 b2 : Nat}
    (h1 : p1 < l.length) (h2 : p2 < l.length) (hne : p1 ≠ p2 ∨ b1 ≠ b2) :
    flipAt l p1 (2 ^ b1) ≠ flipAt l p2 (2 ^ b2) := by
  intro heq
  rcases eq_or_ne p1 p2 with hp | hp
  · subst hp
    have hb : b1 ≠ b2 := by tauto
    have hg : (flipAt l p1 (2 ^ b1)).getD p1 0 = (flipAt l p1 (2 ^ b2)).getD p1 0 := by
      rw [heq]
    rw [flipAt_getD_self _ _ _ h1, flipAt_getD_self _ _ _ h1] at hg
    exact hb (Nat.pow_right_injective (le_refl 2) (xor_left_cancel hg))
  · have hg : (flipAt l p1 (2 ^ b1)).getD p1 0 = (flipAt l p2 (2 ^ b2)).getD p1 0 := by
      rw [heq]
    rw [flipAt_getD_self _ _ _ h1, flipAt_getD_ne _ _ _ _ (Ne.symm hp)] at hg
    exact xor_two_pow_ne _ _ hg

theorem variants_length (input : List Nat) (w : Nat) :
    (variants input w).length = input.length * w := by
  simp [variants]

theorem mem_variants {input : List Nat} {w : Nat} {v : List Nat} :
    v ∈ variants input w ↔ ∃ i, i < input.length * w ∧ v = flipAt input (i / w) (2 ^ (i % w)) := by
  simp [variants, List.mem_map, List.mem_range, eq_comm]

theorem variants_nodup (input : List Nat) (w : Nat) : (variants input w).Nodup := by
  unfold variants
  refine List.Nodup.map_on ?_ (List.nodup_range _)
  intro i hi j hj hfij
  simp only [List.mem_range] at hi hj
  by_contra hij
  have hw : 0 < w := by
    rcases Nat.eq_zero_or_pos w with h0 | h0
    · rw [h0, Nat.mul_zero] at hi; omega
    · exact h0
  have hdi : i / w < input.length := Nat.div_lt_of_lt_mul (by rw [Nat.mul_comm]; exact hi)
  have hdj : j / w < input.length := Nat.div_lt_of_lt_mul (by rw [Nat.mul_comm]; exact hj)
  have hsplit : i / w ≠ j / w ∨ i % w ≠ j % w := by
    by_contra hcon
    push_neg at hcon
    have hi2 := Nat.div_add_mod i w
    have hj2 := Nat.div_add_mod j w
    exact hij (by rw [← hi2, ← hj2, hcon.1, hcon.2])
  exact flipAt_ne_of_ne hdi hdj hsplit hfij

theorem diffBits_self (l : List Nat) : diffBits l l = 0 := by
  induction l with
  | nil => rfl
  | cons x t ih =>
    simp only [diffBits, List.zipWith_cons_cons, List.map_cons, List.sum_cons] at ih ⊢
    rw [Nat.xor_self, popCount_zero, ih]

theorem diffBits_set (l : List Nat) (p c : Nat) (hp : p < l.length) :
    diffBits l (l.set p c) = popCount ((l.getD p 0) ^^^ c) := by
  induction l generalizing p with
  | nil => simp at hp
  | cons x t ih =>
    cases p with
    | zero =>
      have ht := diffBits_self t
      simp only [diffBits, List.set_cons_zero, List.zipWith_cons_cons, List.map_cons,
        List.sum_cons, List.getD_cons_zero] at ht ⊢
      rw [ht, Nat.add_zero]
    | succ p =>
      have hp2 : p < t.length := by simpa using hp
      have iht := ih p hp2
      simp only [diffBits, List.set_cons_succ, List.zipWith_cons_cons, List.map_cons,
        List.sum_cons, List.getD_cons_succ] at iht ⊢
      rw [Nat.xor_self, popCount_zero, iht, Nat.zero_add]

theorem diffBits_flipAt (l : List Nat) (p b : Nat) (hp : p < l.length) :
    diffBits l (flipAt l p (2 ^ b)) = 1 := by
  unfold flipAt
  rw [diffBits_set l _ _ hp, ← Nat.xor_assoc, Nat.xor_self, Nat.zero_xor, popCount_two_pow]

theorem validUtf8_of_ascii : ∀ (l : List Nat), (∀ b ∈ l, b < 128) → validUtf8 l = true := by
  intro l
  induction l with
  | nil => intro _; rfl
  | cons x t ih =>
    intro h
    have hx : x ≤ 0x7F := by
      have := h x (by simp)
      omega
    have hstep : validUtf8 (x :: t) = validUtf8 t := by
      simp [validUtf8, utf8Run, utf8Step, hx]
    rw [hstep]
    exact ih fun b hb => h b (by simp [hb])

theorem ByteIterator.next_bit {it : ByteIterator} (hb : it.bit < it.max) :
    ((it.next).2).bit < ((it.next).2).max := by
  unfold ByteIterator.next
  split
  · exact hb
  · split <;> simp <;> omega

theorem ByteIterator.toList_none {it : ByteIterator} (h : (it.next).1 = none) :
    it.toList = [] := by
  have hex := ByteIterator.next_fst_none h
  have h0 : it.remaining = 0 := by
    unfold ByteIterator.remaining
    rw [Nat.sub_eq_zero_of_le hex, Nat.zero_mul, Nat.zero_sub]
  rw [ByteIterator.toList, h0]
  rfl

theorem ByteIterator.toList_some {it : ByteIterator} {v : List Nat} {it' : ByteIterator}
    (hb : it.bit < it.max) (h : it.next = (some v, it')) :
    it.toList = v :: it'.toList := by
  have hrem := ByteIterator.remaining_next_some hb h
  rw [ByteIterator.toList, hrem]
  simp only [ByteIterator.toListFuel, h]
  rfl

theorem ByteIterator.steps_pos {it : ByteIterator} (hb : it.bit < it.max) :
    0 < it.steps := by
  unfold ByteIterator.steps
  have h1 : 0 < it.max - it.bit := by omega
  omega

theorem StringIterator.next_unfold (s : StringIterator) :
    StringIterator.next s =
      match s.inner.next with
      | (none, it') => (none, ⟨it'⟩)
      | (some v, it') =>
        if validUtf8 v then (some v, ⟨it'⟩) else StringIterator.next ⟨it'⟩ := by
  rw [StringIterator.next]
  split <;> rename_i heq <;> simp only [heq]

theorem StringIterator.next_spec (it : ByteIterator) (hb : it.bit < it.max) :
    (∀ s', StringIterator.next ⟨it⟩ = (none, s') →
        it.toList.filter validUtf8 = [] ∧ s'.inner.input.length ≤ s'.inner.pos) ∧
    (∀ v s', StringIterator.next ⟨it⟩ = (some v, s') →
        validUtf8 v = true ∧ s'.inner.bit < s'.inner.max ∧ s'.inner.steps < it.steps ∧
        it.toList.filter validUtf8 = v :: s'.inner.toList.filter validUtf8) := by
  have hunf0 := StringIterator.next_unfold ⟨it⟩
  rcases hn : it.next with ⟨o, it2⟩
  rw [show (⟨it⟩ : StringIterator).inner = it from rfl, hn] at hunf0
  cases o with
  | none =>
    have hunf : StringIterator.next ⟨it⟩ = (none, (⟨it2⟩ : StringIterator)) := hunf0
    have hex : it.input.length ≤ it.pos := ByteIterator.next_fst_none (by rw [hn])
    have hit2 : it2 = it := by
      have h2 := @ByteIterator.next_of_exhausted it hex
      rw [hn] at h2
      exact (Prod.mk.injEq _ _ _ _).mp h2 |>.2
    constructor
    · intro s' hs'
      rw [hunf] at hs'
      injection hs' with _ hs2
      subst hs2
      refine ⟨?_, ?_⟩
      · rw [ByteIterator.toList_none (by rw [hn])]
        rfl
      · simpa [hit2] using hex
    · intro v s' hs'
      rw [hunf] at hs'
      simp at hs'
  | some v =>
    have hunf : StringIterator.next ⟨it⟩ =
        if validUtf8 v then (some v, (⟨it2⟩ : StringIterator))
        else StringIterator.next ⟨it2⟩ := hunf0
    have hsteps := ByteIterator.steps_next_some hn
    have hbit2 : it2.bit < it2.max := by
      have h2 := @ByteIterator.next_bit it hb
      rwa [hn] at h2
    have htl := ByteIterator.toList_some hb hn
    by_cases hv : validUtf8 v
    · rw [if_pos hv] at hunf
      constructor
      · intro s' hs'
        rw [hunf] at hs'
        simp at hs'
      · intro v' s' hs'
        rw [hunf] at hs'
        injection hs' with hv' hs2
        injection hv' with hv'
        subst hv'
        subst hs2
        refine ⟨hv, hbit2, hsteps, ?_⟩
        rw [htl, List.filter_cons, if_pos hv]
    · rw [if_neg hv] at hunf
      have hfil : it.toList.filter validUtf8 = it2.toList.filter validUtf8 := by
        rw [htl, List.filter_cons, if_neg hv]
      have ihspec := StringIterator.next_spec it2 hbit2
      constructor
      · intro s' hs'
        rw [hunf] at hs'
        obtain ⟨h1, h2⟩ := ihspec.1 s' hs'
        exact ⟨by rw [hfil, h1], h2⟩
      · intro v' s' hs'
        rw [hunf] at hs'
        obtain ⟨h1, h2, h3, h4⟩ := ihspec.2 v' s' hs'
        exact ⟨h1, h2, by omega, by rw [hfil, h4]⟩
termination_by it.steps
decreasing_by exact hsteps

theorem StringIterator.toListFuel_filter :
    ∀ (n : Nat) (it : ByteIterator), it.bit < it.max → it.steps ≤ n →
    StringIterator.toListFuel n ⟨it⟩ = it.toList.filter validUtf8 := by
  intro n
  induction n with
  | zero =>
    intro it hb hsteps
    exact absurd hsteps (by have := ByteIterator.steps_pos hb; omega)
  | succ n ih =>
    intro it hb hsteps
    rcases hsn : StringIterator.next ⟨it⟩ with ⟨o, s'⟩
    cases o with
    | none =>
      obtain ⟨h1, _⟩ := (StringIterator.next_spec it hb).1 s' hsn
      simp only [StringIterator.toListFuel, hsn]
      rw [h1]
    | some v =>
      obtain ⟨_, h2, h3, h4⟩ := (StringIterator.next_spec it hb).2 v s' hsn
      simp only [StringIterator.toListFuel, hsn]
      rw [h4]
      have hs' : s' = ⟨s'.inner⟩ := rfl
      rw [hs', ih s'.inner h2 (by omega)]

theorem StringIterator.toList_filter (it : ByteIterator) (hb : it.bit < it.max) :
    StringIterator.toList ⟨it⟩ = it.toList.filter validUtf8 :=
  StringIterator.toListFuel_filter it.steps it hb (le_refl _)

theorem ascii_str_toList (input : List Nat) :
    (ascii_str input).toList = ((ascii_bytes input).toList).filter validUtf8 :=
  StringIterator.toList_filter (ascii_bytes input) (by simp [ascii_bytes])

theorem utf8_toList (input : List Nat) :
    (utf8 input).toList = ((bytes input).toList).filter validUtf8 :=
  StringIterator.toList_filter (bytes input) (by simp [bytes])

theorem ByteIterator.next_none_fixed {it : ByteIterator} (h : (it.next).1 = none) :
    it.next = (none, it) :=
  ByteIterator.next_of_exhausted (ByteIterator.next_fst_none h)

theorem ByteIterator.after_fixed {it : ByteIterator} (h : it.next = (none, it)) :
    ∀ n, it.after n = it := by
  intro n
  induction n with
  | zero => rfl
  | succ n ih => simp [ByteIterator.after, ih, h]

theorem StringIterator.next_none_fixed_str :
    ∀ (s s' : StringIterator), StringIterator.next s = (none, s') →
    StringIterator.next s' = (none, s') := by
  intro s s' h
  have hunf0 := StringIterator.next_unfold s
  rcases hn : s.inner.next with ⟨o, it2⟩
  rw [hn] at hunf0
  cases o with
  | none =>
    have hunf : StringIterator.next s = (none, (⟨it2⟩ : StringIterator)) := hunf0
    have hex : s.inner.input.length ≤ s.inner.pos := ByteIterator.next_fst_none (by rw [hn])
    have hit2 : it2 = s.inner := by
      have h2 := @ByteIterator.next_of_exhausted s.inner hex
      rw [hn] at h2
      exact (Prod.mk.injEq _ _ _ _).mp h2 |>.2
    rw [hunf] at h
    injection h with _ hs2
    have hss : s' = s := by
      rw [← hs2, hit2]
    rw [hss, hunf, hit2]
  | some v =>
    have hunf : StringIterator.next s =
        if validUtf8 v then (some v, (⟨it2⟩ : StringIterator))
        else StringIterator.next ⟨it2⟩ := hunf0
    rw [hunf] at h
    by_cases hv : validUtf8 v
    · rw [if_pos hv] at h
      simp at h
    · rw [if_neg hv] at h
      exact StringIterator.next_none_fixed_str ⟨it2⟩ s' h
termination_by s _ _ => s.inner.steps
decreasing_by exact ByteIterator.steps_next_some hn

theorem StringIterator.after_fixed_str {s : StringIterator} (h : s.next = (none, s)) :
    ∀ n, s.after n = s := by
  intro n
  induction n with
  | zero => rfl
  | succ n ih => simp [StringIterator.after, ih, h]

theorem mem_variants_props {input : List Nat} {w : Nat} {v : List Nat}
    (hv : v ∈ variants input w) : v.length = input.length ∧ diffBits input v = 1 := by
  obtain ⟨i, hi, rfl⟩ := mem_variants.mp hv
  have hp : i / w < input.length := Nat.div_lt_of_lt_mul (by rw [Nat.mul_comm]; exact hi)
  exact ⟨flipAt_length _ _ _, diffBits_flipAt _ _ _ hp⟩

theorem variants_msb (input : List Nat) {v : List Nat} (hv : v ∈ variants input 7) (j : Nat) :
    (v.getD j 0).testBit 7 = (input.getD j 0).testBit 7 := by
  obtain ⟨i, hi, rfl⟩ := mem_variants.mp hv
  have hp : i / 7 < input.length := Nat.div_lt_of_lt_mul (by rw [Nat.mul_comm]; exact hi)
  have hb : i % 7 < 7 := Nat.mod_lt _ (by norm_num)
  rcases eq_or_ne (i / 7) j with hj | hj
  · subst hj
    rw [flipAt_getD_self _ _ _ hp, Nat.testBit_xor,
      Nat.testBit_two_pow_of_ne (by omega : i % 7 ≠ 7)]
    simp
  · rw [flipAt_getD_ne _ _ _ _ hj]

theorem ByteIterator.next_some_lt {it : ByteIterator} {v : List Nat} {it' : ByteIterator}
    (h : it.next = (some v, it')) : it.pos < it.input.length := by
  by_contra hle
  push_neg at hle
  rw [ByteIterator.next_of_exhausted hle] at h
  simp at h

theorem ByteIterator.after_props {it : ByteIterator} (hb : it.bit < it.max)
    (hp : it.pos ≤ it.input.length) (n : Nat) :
    (it.after n).bit < (it.after n).max ∧ (it.after n).pos ≤ (it.after n).input.length ∧
    (it.after n).input = it.input ∧ (it.after n).max = it.max := by
  induction n with
  | zero => exact ⟨hb, hp, rfl, rfl⟩
  | succ n ih =>
    obtain ⟨h1, h2, h3, h4⟩ := ih
    have h5 := ByteIterator.next_inv h1 h2
    refine ⟨h5.1, h5.2, ?_, ?_⟩ <;>
      simp only [ByteIterator.after, ByteIterator.next_input, ByteIterator.next_max, h3, h4]

theorem flipAt_ascii {l : List Nat} (hl : ∀ b ∈ l, b < 128) {p m : Nat} (hm : m < 128) :
    ∀ b ∈ flipAt l p m, b < 128 := by
  intro b hb
  rcases List.mem_or_eq_of_mem_set hb with h1 | h1
  · exact hl b h1
  · subst h1
    have hg : l.getD p 0 < 128 := by
      rcases Nat.lt_or_ge p l.length with hp | hp
      · rw [List.getD_eq_getElem l 0 hp]
        exact hl _ (l.getElem_mem hp)
      · rw [List.getD_eq_default l 0 hp]
        omega
    have e : (2 : Nat) ^ 7 = 128 := by norm_num
    have hx : l.getD p 0 ^^^ m < 2 ^ 7 :=
      Nat.xor_lt_two_pow (by rw [e]; exact hg) (by rw [e]; exact hm)
    rw [e] at hx
    exact hx

/-- Claim C1: for every input buffer of length L the unfiltered entry points
emit exactly L × W variants before exhaustion (W = 7 for `ascii_bytes`, 8 for
`bytes`), pairwise distinct, each of the input's length and differing from
the input in exactly one bit; the empty buffer yields zero variants from all
four entry points. -/
theorem C1_unfiltered_enumeration (input : List Nat) :
    (ascii_bytes input).toList.length = input.length * 7 ∧
    (bytes input).toList.length = input.length * 8 ∧
    (ascii_bytes input).toList.Nodup ∧
    (bytes input).toList.Nodup ∧
    (∀ v ∈ (ascii_bytes input).toList, v.length = input.length ∧ diffBits input v = 1) ∧
    (∀ v ∈ (bytes input).toList, v.length = input.length ∧ diffBits input v = 1) ∧
    (ascii_bytes []).toList = [] ∧ (bytes []).toList = [] ∧
    (ascii_str []).toList = [] ∧ (utf8 []).toList = [] := by
  refine ⟨?_, ?_, ?_, ?_, ?_, ?_, rfl, rfl, ?_, ?_⟩
  · rw [ascii_bytes_toList, variants_length]
  · rw [bytes_toList, variants_length]
  · rw [ascii_bytes_toList]; exact variants_nodup _ _
  · rw [bytes_toList]; exact variants_nodup _ _
  · intro v hv
    rw [ascii_bytes_toList] at hv
    exact mem_variants_props hv
  · intro v hv
    rw [bytes_toList] at hv
    exact mem_variants_props hv
  · rw [ascii_str_toList]; rfl
  · rw [utf8_toList]; rfl

/-- Claim C1, instantiated: the membership hypotheses are satisfiable, e.g.
the first variant of `ascii_bytes "a"`. -/
theorem C1_unfiltered_enumeration_witness :
    [0x60] ∈ (ascii_bytes [0x61]).toList ∧
    ([0x60] : List Nat).length = ([0x61] : List Nat).length ∧
    diffBits [0x61] [0x60] = 1 := by
  have h := (C1_unfiltered_enumeration [0x61]).2.2.2.2.1 [0x60] (by decide)
  exact ⟨by decide, h.1, h.2⟩

/-- Claim C2: the i-th value emitted by the byte mutator (0-based,
i < L × W) is a fresh copy of the input with the byte at position i / W
XOR-ed with 1 <<< (i % W), bit-index 0 being the least-significant bit —
i.e. variants come in lexicographic (byte-position, bit-index) order. -/
theorem C2_variant_order (input : List Nat) (i : Nat) :
    (i < input.length * 7 →
      (ascii_bytes input).toList[i]? = some (flipAt input (i / 7) (2 ^ (i % 7)))) ∧
    (i < input.length * 8 →
      (bytes input).toList[i]? = some (flipAt input (i / 8) (2 ^ (i % 8)))) := by
  constructor
  · intro hi
    rw [ascii_bytes_toList]
    unfold variants
    rw [List.getElem?_map, List.getElem?_range hi]
    rfl
  · intro hi
    rw [bytes_toList]
    unfold variants
    rw [List.getElem?_map, List.getElem?_range hi]
    rfl

/-- Claim C2, instantiated at input "a", index 3. -/
theorem C2_variant_order_witness :
    (ascii_bytes [0x61]).toList[3]? = some (flipAt [0x61] (3 / 7) (2 ^ (3 % 7))) ∧
    (bytes [0x61]).toList[3]? = some (flipAt [0x61] (3 / 8) (2 ^ (3 % 8))) :=
  ⟨(C2_variant_order [0x61] 3).1 (by decide), (C2_variant_order [0x61] 3).2 (by decide)⟩

/-- Claim C3: the filtered entry points emit exactly the valid-UTF-8
subsequence of the corresponding unfiltered byte-mutation sequence
(filtering preserves order and only removes elements; invalid buffers are
silently discarded; the sequence ends when the wrapped mutator is
exhausted).  Decoded text values are represented by their UTF-8 bytes. -/
theorem C3_filter_law (input : List Nat) :
    (ascii_str input).toList = ((ascii_bytes input).toList).filter validUtf8 ∧
    (utf8 input).toList = ((bytes input).toList).filter validUtf8 :=
  ⟨ascii_str_toList input, utf8_toList input⟩

/-- Claim C4: under the 7-bit policy, bit 7 (the most-significant bit) of
every byte of every produced variant equals bit 7 of the corresponding
input byte — even when the input already has high bits set. -/
theorem C4_msb_preserved (input : List Nat) :
    (∀ v ∈ (ascii_bytes input).toList, ∀ j,
      (v.getD j 0).testBit 7 = (input.getD j 0).testBit 7) ∧
    (∀ v ∈ (ascii_str input).toList, ∀ j,
      (v.getD j 0).testBit 7 = (input.getD j 0).testBit 7) := by
  constructor
  · intro v hv j
    rw [ascii_bytes_toList] at hv
    exact variants_msb input hv j
  · intro v hv j
    rw [ascii_str_toList, ascii_bytes_toList] at hv
    exact variants_msb input (List.mem_filter.mp hv).1 j

/-- Claim C4, instantiated on an input whose high bit is already set:
the variant 0xE0 of input 0xE1 keeps bit 7 set. -/
theorem C4_msb_preserved_witness :
    [0xE0] ∈ (ascii_bytes [0xE1]).toList ∧
    (([0xE0] : List Nat).getD 0 0).testBit 7 = (([0xE1] : List Nat).getD 0 0).testBit 7 :=
  ⟨by decide, (C4_msb_preserved [0xE1]).1 [0xE0] (by decide) 0⟩

/-- Claim C5: on input 0x61 0x62 0x63 ("abc"), `ascii_bytes` yields exactly
21 variants including "!bc" and "ab#" but not 0xE1 0x62 0x63, while `bytes`
yields exactly 24 variants — the same 21 plus exactly the three high-bit
flips. -/
theorem C5_concrete_abc :
    (ascii_bytes [0x61, 0x62, 0x63]).toList.length = 21 ∧
    [0x21, 0x62, 0x63] ∈ (ascii_bytes [0x61, 0x62, 0x63]).toList ∧
    [0x61, 0x62, 0x23] ∈ (ascii_bytes [0x61, 0x62, 0x63]).toList ∧
    [0xE1, 0x62, 0x63] ∉ (ascii_bytes [0x61, 0x62, 0x63]).toList ∧
    (bytes [0x61, 0x62, 0x63]).toList.length = 24 ∧
    (∀ v ∈ (ascii_bytes [0x61, 0x62, 0x63]).toList, v ∈ (bytes [0x61, 0x62, 0x63]).toList) ∧
    [0xE1, 0x62, 0x63] ∈ (bytes [0x61, 0x62, 0x63]).toList ∧
    [0x61, 0xE2, 0x63] ∈ (bytes [0x61, 0x62, 0x63]).toList ∧
    [0x61, 0x62, 0xE3] ∈ (bytes [0x61, 0x62, 0x63]).toList ∧
    (∀ v ∈ (bytes [0x61, 0x62, 0x63]).toList,
      v ∈ (ascii_bytes [0x61, 0x62, 0x63]).toList ∨
      v = [0xE1, 0x62, 0x63] ∨ v = [0x61, 0xE2, 0x63] ∨ v = [0x61, 0x62, 0xE3]) := by
  decide

/-- Claim C6: on "abc", `utf8` yields exactly the same 21 variants as
`ascii_str`; the UTF-8 filter drops exactly the three high-bit-flip buffers
from the 24 produced by the 8-bit mutator. -/
theorem C6_utf8_abc_agrees :
    (utf8 [0x61, 0x62, 0x63]).toList = (ascii_str [0x61, 0x62, 0x63]).toList ∧
    ((bytes [0x61, 0x62, 0x63]).toList.filter fun v => !validUtf8 v) =
      [[0xE1, 0x62, 0x63], [0x61, 0xE2, 0x63], [0x61, 0x62, 0xE3]] ∧
    (ascii_str [0x61, 0x62, 0x63]).toList.length = 21 := by
  refine ⟨?_, by decide, ?_⟩
  · rw [utf8_toList, ascii_str_toList]
    decide
  · rw [ascii_str_toList]
    decide

/-- Claim C7: exhaustion is permanent for both iterator kinds — once a
`next` call returns no value, every subsequent call on the same session
returns no value (and the state is a fixed point). -/
theorem C7_exhaustion_permanent :
    (∀ it : ByteIterator, (it.next).1 = none →
      ∀ n, (((it.next).2).after n).next = (none, ((it.next).2).after n)) ∧
    (∀ s : StringIterator, (s.next).1 = none →
      ∀ n, (((s.next).2).after n).next = (none, ((s.next).2).after n)) := by
  constructor
  · intro it h n
    have hfix := ByteIterator.next_none_fixed h
    rw [hfix]
    rw [ByteIterator.after_fixed hfix n]
    exact hfix
  · intro s h n
    rcases hs : s.next with ⟨o, s'⟩
    have ho : o = none := by rw [hs] at h; exact h
    subst ho
    have hfix := StringIterator.next_none_fixed_str s s' hs
    show (s'.after n).next = (none, s'.after n)
    rw [StringIterator.after_fixed_str hfix n]
    exact hfix

/-- Claim C7, instantiated on the empty sessions of `ascii_bytes` and
`ascii_str`, two calls past exhaustion. -/
theorem C7_exhaustion_permanent_witness :
    ((ascii_bytes []).next).1 = none ∧
    ((((ascii_bytes []).next).2).after 2).next = (none, (((ascii_bytes []).next).2).after 2) ∧
    ((ascii_str []).next).1 = none ∧
    ((((ascii_str []).next).2).after 2).next = (none, (((ascii_str []).next).2).after 2) := by
  have h1 : ((ascii_bytes []).next).1 = none := by decide
  have h2 : ((ascii_str []).next).1 = none := by
    rw [StringIterator.next_unfold]
    decide
  exact ⟨h1, C7_exhaustion_permanent.1 (ascii_bytes []) h1 2,
    h2, C7_exhaustion_permanent.2 (ascii_str []) h2 2⟩

/-- Claim C8: in every reachable state of a byte mutator session,
bit-index < policy width and byte-position ≤ buffer length; and every
`next` call leaves the stored input and the policy width unchanged. -/
theorem C8_state_invariants (input : List Nat) (n : Nat) :
    (((ascii_bytes input).after n).bit < ((ascii_bytes input).after n).max ∧
      ((ascii_bytes input).after n).pos ≤ input.length ∧
      ((ascii_bytes input).after n).input = input ∧
      ((ascii_bytes input).after n).max = 7) ∧
    (((bytes input).after n).bit < ((bytes input).after n).max ∧
      ((bytes input).after n).pos ≤ input.length ∧
      ((bytes input).after n).input = input ∧
      ((bytes input).after n).max = 8) ∧
    (∀ it : ByteIterator, ((it.next).2).input = it.input ∧ ((it.next).2).max = it.max) := by
  refine ⟨?_, ?_, fun it => ⟨ByteIterator.next_input it, ByteIterator.next_max it⟩⟩
  · obtain ⟨h1, h2, h3, h4⟩ :=
      @ByteIterator.after_props (ascii_bytes input)
        (by simp [ascii_bytes]) (by simp [ascii_bytes]) n
    rw [h3] at h2
    exact ⟨h1, h2, h3, h4⟩
  · obtain ⟨h1, h2, h3, h4⟩ :=
      @ByteIterator.after_props (bytes input)
        (by simp [bytes]) (by simp [bytes]) n
    rw [h3] at h2
    exact ⟨h1, h2, h3, h4⟩

/-- Claim C9: every operation is total — in every reachable state the bit
shift stays below a byte's width, and whenever `next` emits a value the
indexed byte-position is within the buffer, so nothing can panic; the only
non-value outcome is normal exhaustion. -/
theorem C9_totality (input : List Nat) (n : Nat) :
    (((ascii_bytes input).after n).bit < 8 ∧
      ∀ v it', ((ascii_bytes input).after n).next = (some v, it') →
        ((ascii_bytes input).after n).pos < ((ascii_bytes input).after n).input.length) ∧
    (((bytes input).after n).bit < 8 ∧
      ∀ v it', ((bytes input).after n).next = (some v, it') →
        ((bytes input).after n).pos < ((bytes input).after n).input.length) := by
  constructor
  · obtain ⟨h1, _, _, h4⟩ :=
      @ByteIterator.after_props (ascii_bytes input)
        (by simp [ascii_bytes]) (by simp [ascii_bytes]) n
    have h7 : (ascii_bytes input).max = 7 := rfl
    refine ⟨by omega, ?_⟩
    intro v it' hnext
    exact ByteIterator.next_some_lt hnext
  · obtain ⟨h1, _, _, h4⟩ :=
      @ByteIterator.after_props (bytes input)
        (by simp [bytes]) (by simp [bytes]) n
    have h8 : (bytes input).max = 8 := rfl
    refine ⟨by omega, ?_⟩
    intro v it' hnext
    exact ByteIterator.next_some_lt hnext

/-- Claim C9, instantiated at input "a", fresh state: the first `next`
call emits a value and indexes in bounds. -/
theorem C9_totality_witness :
    (ascii_bytes [0x61]).next = (some [0x60], ⟨[0x61], 0, 1, 7⟩) ∧
    ((ascii_bytes [0x61]).after 0).pos < (((ascii_bytes [0x61]).after 0).input).length :=
  ⟨by decide, (C9_totality [0x61] 0).1.2 [0x60] ⟨[0x61], 0, 1, 7⟩ (by decide)⟩

/-- Claim C10 (implicit): for an all-ASCII input of byte length L,
`ascii_str` yields exactly 7 × L strings — the UTF-8 filter discards
nothing, since flipping a low-order bit of an ASCII byte yields another
ASCII byte and hence a valid UTF-8 buffer. -/
theorem C10_ascii_str_full (input : List Nat) (h : ∀ b ∈ input, b < 0x80) :
    (ascii_str input).toList.length = 7 * input.length := by
  rw [ascii_str_toList, ascii_bytes_toList]
  have hall : ∀ v ∈ variants input 7, validUtf8 v = true := by
    intro v hv
    obtain ⟨i, hi, rfl⟩ := mem_variants.mp hv
    have hb : i % 7 < 7 := Nat.mod_lt _ (by norm_num)
    have hm : 2 ^ (i % 7) < 128 := by
      calc 2 ^ (i % 7) ≤ 2 ^ 6 := Nat.pow_le_pow_right (by norm_num) (by omega)
        _ < 128 := by norm_num
    exact validUtf8_of_ascii _ (flipAt_ascii h hm)
  rw [List.filter_eq_self.mpr hall, variants_length, Nat.mul_comm]

/-- Claim C10, instantiated at the ASCII input "ab". -/
theorem C10_ascii_str_full_witness :
    (∀ b ∈ ([0x61, 0x62] : List Nat), b < 0x80) ∧
    (ascii_str [0x61, 0x62]).toList.length = 7 * ([0x61, 0x62] : List Nat).length :=
  ⟨by decide, C10_ascii_str_full [0x61, 0x62] (by decide)⟩

end Bitflip
